import Mathlib

/-!
Verification of the `sevenzip` 7-zip reader library.

Each Go source construct used by the claims is embedded shallowly:
bytes are `Nat` values below 256, Go `uint64`/`int64` arithmetic is
`Nat`/`Int` arithmetic with explicit reductions modulo `2 ^ 64` where Go
would wrap, fallible functions return `Option`/`Except`, and stateful
readers are explicit state-passing functions.
-/

namespace SevenZip

/-! ### Decoder registry (`register.go`) -/

/-- Tag identifying a decompressor constructor.  The six bundled
constructors registered by `init` in `register.go` get named tags;
externally registered constructors are modelled by `custom`. -/
inductive DecompTag where
  | copy
  | lzma
  | deflate
  | bzip2
  | aes7z
  | lzma2
  | custom (n : Nat)
deriving DecidableEq, Repr

/-- The registry state: an association of method-id byte sequences to
constructor tags, modelling the `decompressors` `sync.Map` in `register.go`.
Keys are compared as byte strings, exactly like `string(method)`. -/
def Registry : Type := List (List Nat × DecompTag)

instance : DecidableEq Registry := by
  unfold Registry
  infer_instance

/-- Models `decompressors.Load`: returns the constructor stored for the
method id, if any. -/
def registryLoad (reg : Registry) (method : List Nat) : Option DecompTag :=
  match reg with
  | [] => none
  | (m, d) :: rest => if m = method then some d else registryLoad rest method

/-- Models `RegisterDecompressor` in `register.go`.  `LoadOrStore` keeps any
existing entry and reports it as a duplicate, in which case the function
calls `panic("decompressor already registered")`; the aborted call is
modelled by `none`.  Otherwise the constructor is stored. -/
def registerDecompressor (reg : Registry) (method : List Nat) (dcomp : DecompTag) :
    Option Registry :=
  match registryLoad reg method with
  | some _ => none
  | none => some ((method, dcomp) :: reg)

/-- Models the `init` function of `register.go`: the six bundled
registrations in source order, each through `registerDecompressor`. -/
def initRegistry : Option Registry :=
  (registerDecompressor [] [0x00] .copy).bind fun r1 =>
  (registerDecompressor r1 [0x03, 0x01, 0x01] .lzma).bind fun r2 =>
  (registerDecompressor r2 [0x04, 0x01, 0x08] .deflate).bind fun r3 =>
  (registerDecompressor r3 [0x04, 0x02, 0x02] .bzip2).bind fun r4 =>
  (registerDecompressor r4 [0x06, 0xf1, 0x07, 0x01] .aes7z).bind fun r5 =>
  registerDecompressor r5 [0x21] .lzma2

/-- Models the package-level `decompressor` function of `register.go`:
`Load` on the registry, `none` when the method id is unknown. -/
def decompressor (reg : Registry) (method : List Nat) : Option DecompTag :=
  registryLoad reg method

/-! ### Delta filter (`internal/delta/reader.go`) -/

/-- Models the ring distance computed by `NewReader` in
`internal/delta/reader.go`: exactly one property byte is required, and the
distance is `int(p[0] + 1)` where the addition is performed on a Go `byte`
and therefore wraps modulo 256. -/
def deltaDistance (p : List Nat) : Option Nat :=
  match p with
  | [p0] => some ((p0 + 1) % 256)
  | _ => none

/-! ### Pipeline pool (`internal/pool/pool.go`) -/

/-- State of one folder pool: the LRU cache contents as pairs of key
(`int64` uncompressed stream offset) and pipeline, plus the pipelines the
eviction callback has closed so far.  Pipelines are identified by `Nat`
tags. -/
structure PoolState where
  cache : List (Int × Nat)
  closed : List Nat
deriving DecidableEq, Repr

/-- Models `lru.Cache.Get`: value stored under a key, if any. -/
def cacheLookup (cache : List (Int × Nat)) (k : Int) : Option Nat :=
  match cache with
  | [] => none
  | (k0, v) :: rest => if k0 = k then some v else cacheLookup rest k

/-- Models `lru.Cache.RemoveWithoutEvict`: drops the entry stored under the
key without running the eviction callback. -/
def cacheRemove (cache : List (Int × Nat)) (k : Int) : List (Int × Nat) :=
  match cache with
  | [] => []
  | (k0, v) :: rest => if k0 = k then rest else (k0, v) :: cacheRemove rest k

/-- Models `pool.Get` in `internal/pool/pool.go`: an exact hit is returned
after `RemoveWithoutEvict`; otherwise the cache keys are sorted in
descending order and the first key strictly below the requested offset is
the closest earlier pipeline, which is returned and removed; otherwise the
call is a miss.  The found key is returned alongside the pipeline so the
theorems can speak about it; the second inner `none` branch is unreachable
because the scanned key always comes from the cache. -/
def poolGet (p : PoolState) (offset : Int) : Option (Int × Nat) × PoolState :=
  match cacheLookup p.cache offset with
  | some reader => (some (offset, reader), { p with cache := cacheRemove p.cache offset })
  | none =>
    let keys := (p.cache.map Prod.fst).mergeSort fun a b => decide (b ≤ a)
    match keys.find? fun k => decide (k < offset) with
    | some k =>
      match cacheLookup p.cache k with
      | some reader => (some (k, reader), { p with cache := cacheRemove p.cache k })
      | none => (none, p)
    | none => (none, p)

/-! ### Folder read-closer (`struct.go`) -/

/-- Errors a `folderReadCloser.Seek` call can produce; `copyErr` stands
for a wrapped error from the `io.CopyN` discard step. -/
inductive SeekErr where
  | invalidWhence
  | negativeSeek
  | seekBackwards
  | seekEOF
  | copyErr
deriving DecidableEq, Repr

/-- State of a `folderReadCloser`: `count` is `wc.Count()`, the bytes read
so far; `size` the declared total unpack size; `stream` the bytes the
underlying pipeline can still produce; `hashed` the bytes fed into the
CRC-32 hash by the tee reader. -/
structure FolderRC where
  count : Nat
  size : Int
  stream : List Nat
  hashed : List Nat
deriving DecidableEq, Repr

/-- Models `folderReadCloser.Seek`.  `whence` is the Go `io.Seek*` integer
constant (0 start, 1 current, 2 end).  Forward movement is `io.CopyN` to
`io.Discard` reading through the tee reader, so discarded bytes still
reach the hash and the counter; a short underlying stream surfaces the
copy error (the state mutated by the partial copy is not observable
through the error return and is not modelled). -/
def folderSeek (rc : FolderRC) (offset : Int) (whence : Int) :
    Except SeekErr (Int × FolderRC) :=
  if whence ≠ 0 ∧ whence ≠ 1 ∧ whence ≠ 2 then .error .invalidWhence
  else
    let newo : Int :=
      if whence = 0 then offset
      else if whence = 1 then (rc.count : Int) + offset
      else rc.size + offset
    if newo < 0 then .error .negativeSeek
    else if newo.toNat < rc.count then .error .seekBackwards
    else if newo > rc.size then .error .seekEOF
    else
      let k := newo.toNat - rc.count
      if rc.stream.length < k then .error .copyErr
      else .ok (newo, { count := newo.toNat, size := rc.size,
                        stream := rc.stream.drop k,
                        hashed := rc.hashed ++ rc.stream.take k })

/-! ### File reader facade (`reader.go`) -/

/-- Error value of one `Read` call: `ok` models a nil error, `eof` models
`io.EOF`. -/
inductive ReadRes where
  | ok
  | eof
deriving DecidableEq, Repr

/-- Models the Go conversion `int64(u)` of a `uint64` value `u < 2 ^ 64`:
reinterpretation of the two's-complement bit pattern. -/
def int64OfUInt64 (u : Nat) : Int :=
  if u < 2 ^ 63 then (u : Int) else (u : Int) - 2 ^ 64

/-- State of the `fileReader` facade returned by `File.Open`: `n` is the
remaining byte budget (field `n`, an `int64`) and `src` the bytes the
positioned folder pipeline below can still produce. -/
structure FileReader where
  n : Int
  src : List Nat
deriving DecidableEq, Repr

/-- Models `fileReader.Read` for a request of `plen` bytes: empty requests
return immediately, an exhausted budget returns `io.EOF`, otherwise the
request is clamped to the budget, the underlying pipeline returns at most
that many bytes (and `io.EOF` when it has none), and the budget shrinks by
the bytes read. -/
def fileRead (s : FileReader) (plen : Nat) : Nat × ReadRes × FileReader :=
  if plen = 0 then (0, .ok, s)
  else if s.n ≤ 0 then (0, .eof, s)
  else
    let plen1 := min plen s.n.toNat
    let k := min plen1 s.src.length
    let res : ReadRes := if k = 0 then .eof else .ok
    (k, res, { n := s.n - k, src := s.src.drop k })

/-- Runs a sequence of `Read` calls against a `fileReader`, accumulating
the total number of bytes returned. -/
def runReads (s : FileReader) : List Nat → Nat × FileReader
  | [] => (0, s)
  | plen :: rest =>
    let step := fileRead s plen
    let rest1 := runReads step.2.2 rest
    (step.1 + rest1.1, rest1.2)

/-! ### AES-CBC stream (`internal/aes7z/reader.go`) -/

/-- Errors a `readCloser.Read` call in `internal/aes7z/reader.go` can
produce.  `readBlockErr` is the wrapped error returned when `io.ReadFull`
fails with anything that `errors.Is(err, io.EOF)` does not match -- in
particular `io.ErrUnexpectedEOF` from a trailing partial block. -/
inductive AesErr where
  | noPasswordSet
  | readBlockErr
deriving DecidableEq, Repr

/-- State of the AES read closer.  The CBC block mode is kept abstract: a
chaining state of type `σ` plus a step function passed to the operations.
`pwSet` records whether `Password` installed the decrypter, `upstream` the
ciphertext bytes still unread and `buf` the decrypted bytes buffered in
`rc.buf`. -/
structure AesState (σ : Type) where
  pwSet : Bool
  cbcSt : σ
  upstream : List Nat
  buf : List Nat

/-- Models the fill loop of `readCloser.Read`: while fewer than `plen`
decrypted bytes are buffered, `io.ReadFull` reads one whole 16-byte block,
`CryptBlocks` decrypts it and it is appended to the buffer.  A clean end of
the ciphertext (`io.EOF`, zero bytes available) stops the loop; an end
inside a block raises `io.ErrUnexpectedEOF`, which the `errors.Is(err,
io.EOF)` test does not match, so the read aborts with the wrapped error.
The `fuel` argument is only a structural iteration budget: every round
consumes 16 ciphertext bytes, so a budget above the ciphertext length is
never exhausted (its fallback branch is unreachable). -/
def aesFillF {σ : Type} (cbc : σ → List Nat → List Nat × σ) (plen : Nat) :
    Nat → List Nat → List Nat → σ → Except AesErr (List Nat × List Nat × σ)
  | 0, upstream, buf, st => .ok (upstream, buf, st)
  | fuel + 1, upstream, buf, st =>
    if buf.length < plen then
      if upstream.length = 0 then .ok (upstream, buf, st)
      else if upstream.length < 16 then .error .readBlockErr
      else
        let step := cbc st (upstream.take 16)
        aesFillF cbc plen fuel (upstream.drop 16) (buf ++ step.1) step.2
    else .ok (upstream, buf, st)

/-- The fill loop started with a sufficient iteration budget. -/
def aesFill {σ : Type} (cbc : σ → List Nat → List Nat × σ) (plen : Nat)
    (upstream buf : List Nat) (st : σ) : Except AesErr (List Nat × List Nat × σ) :=
  aesFillF cbc plen (upstream.length + 1) upstream buf st

/-- Models `readCloser.Read` for a request of `plen` bytes: without a
password the read fails, otherwise the buffer is filled in whole 16-byte
blocks and up to `plen` buffered bytes are delivered; an empty buffer with
a non-empty request yields `io.EOF`, as `bytes.Buffer.Read` does. -/
def aesRead {σ : Type} (cbc : σ → List Nat → List Nat × σ) (s : AesState σ)
    (plen : Nat) : Except AesErr (Nat × List Nat × ReadRes × AesState σ) :=
  if s.pwSet = false then .error .noPasswordSet
  else
    match aesFill cbc plen s.upstream s.buf s.cbcSt with
    | .error e => .error e
    | .ok (up1, buf1, st1) =>
      let k := min plen buf1.length
      let res : ReadRes := if k = 0 ∧ 0 < plen then .eof else .ok
      .ok (k, buf1.take k,
           res, { pwSet := s.pwSet, cbcSt := st1, upstream := up1, buf := buf1.drop k })

/-! ### Signature scan and archive open (`reader.go`) -/

/-- The 6-byte 7-zip magic `{'7', 'z', 0xbc, 0xaf, 0x27, 0x1c}`. -/
def signature : List Nat := [0x37, 0x7a, 0xbc, 0xaf, 0x27, 0x1c]

/-- Scan chunk size of `findSignature` (`chunkSize` in `reader.go`). -/
def chunkSize : Nat := 4096

/-- Scan limit of `findSignature` (`searchLimit` in `reader.go`, 1 MiB). -/
def searchLimit : Nat := 2 ^ 20

/-- Whether `pat` is a prefix of `l`, comparing byte by byte. -/
def listStartsWith : List Nat → List Nat → Bool
  | _, [] => true
  | [], _ :: _ => false
  | a :: l, b :: pat => a = b && listStartsWith l pat

/-- Models `bytes.Index pat`: index of the first occurrence of `pat` in
the scanned list, `none` when there is none. -/
def bytesIndex (pat : List Nat) : List Nat → Option Nat
  | [] => if listStartsWith [] pat then some 0 else none
  | a :: t =>
    if listStartsWith (a :: t) pat then some 0
    else (bytesIndex pat t).map (· + 1)

/-- The magic occurs in the source at absolute position `q`. -/
def occursAt (src : List Nat) (q : Nat) : Bool :=
  listStartsWith (src.drop q) signature

/-- One round of the bitwise CRC-32 computation: shift right once and fold
in the reflected IEEE polynomial when the dropped bit was set. -/
def crc32Round (c : Nat) : Nat :=
  if c % 2 = 1 then Nat.xor (c / 2) 0xedb88320 else c / 2

/-- Feeds one byte into a running CRC-32 (IEEE) value. -/
def crc32Byte (crc b : Nat) : Nat :=
  crc32Round (crc32Round (crc32Round (crc32Round
    (crc32Round (crc32Round (crc32Round (crc32Round (Nat.xor crc b))))))))

/-- CRC-32 (IEEE) of a byte list, as `hash/crc32` computes it. -/
def crc32Bytes (l : List Nat) : Nat :=
  Nat.xor (l.foldl crc32Byte 0xffffffff) 0xffffffff

/-- Little-endian `uint32` decoded from four source bytes at position `i`;
used via `binary.Read(..., binary.LittleEndian, ...)`. -/
def le32at (src : List Nat) (i : Nat) : Nat :=
  src.getD i 0 + 256 * src.getD (i + 1) 0 + 65536 * src.getD (i + 2) 0 +
    16777216 * src.getD (i + 3) 0

/-- Models the inner loop of `findSignature` over one chunk: `sub` is the
not-yet-scanned suffix of the chunk's valid bytes and `pos` its absolute
source offset.  Every hit is appended to the accumulated offsets and, as
in the Go code, if the first recorded offset is 0 the whole search returns
at once, signalled by the `true` flag.  The `fuel` argument is only a
structural iteration budget: every round shortens `sub` by at least one
byte, so a budget above the length of `sub` is never exhausted (its
fallback branch is unreachable). -/
def scanChunkF : Nat → List Nat → Nat → List Nat → List Nat × Bool
  | 0, _sub, _pos, acc => (acc, false)
  | fuel + 1, sub, pos, acc =>
    match bytesIndex signature sub with
    | none => (acc, false)
    | some idx =>
      let acc1 := acc ++ [pos + idx]
      if acc1.headI = 0 then (acc1, true)
      else scanChunkF fuel (sub.drop (idx + 1)) (pos + idx + 1) acc1

/-- The chunk scan started with a sufficient iteration budget. -/
def scanChunk (sub : List Nat) (pos : Nat) (acc : List Nat) : List Nat × Bool :=
  scanChunkF (sub.length + 1) sub pos acc

/-- Models the chunk loop of `findSignature`: starting at source offset
`off` (a multiple of `chunkSize`), `ReadAt` fills a `chunkSize + 6` byte
buffer with `n` valid bytes, the chunk is scanned, and the loop advances
by `chunkSize` until it passes `searchLimit` or `ReadAt` reports `io.EOF`
(a short read).  The `iters` argument counts the loop rounds left before
`off` reaches `searchLimit`: the loop guard `off < searchLimit` with step
`chunkSize` is exactly `iters > 0` when
`off + iters * chunkSize = searchLimit`. -/
def findSignatureGo (src : List Nat) : Nat → Nat → List Nat → List Nat
  | 0, _off, acc => acc
  | iters + 1, off, acc =>
    let n := min (chunkSize + 6) (src.length - off)
    let scan := scanChunk ((src.drop off).take n) off acc
    if scan.2 then scan.1
    else if n < chunkSize + 6 then scan.1
    else findSignatureGo src iters (off + chunkSize) scan.1

/-- Models `findSignature` in `reader.go`: the scan starts at offset 0
with `searchLimit / chunkSize` loop rounds ahead of it. -/
def findSignature (src : List Nat) : List Nat :=
  findSignatureGo src (searchLimit / chunkSize) 0 []

/-- Errors of the archive-open stages modelled here. -/
inductive InitErr where
  | negativeSize
  | formatErr
  | checksumErr
  | readHeaderErr
deriving DecidableEq, Repr

/-- Models the candidate loop in `Reader.init`: for each signature hit, a
section reader bounded by the declared size delivers the 12-byte signature
header and then the 20-byte start header, whose CRC-32 must equal the
little-endian `uint32` stored at `off + 8`.  The loop stops at the first
hit that validates; a mismatch remembers `errChecksum` and tries the next
hit; a failed 32-byte read aborts with the wrapped `binary.Read` error. -/
def checkOffsets (src : List Nat) (size : Int) : List Nat → Except InitErr Nat
  | [] => .error .checksumErr
  | off :: rest =>
    if (off : Int) + 32 > min size (src.length : Int) then .error .readHeaderErr
    else if crc32Bytes ((src.drop (off + 12)).take 20) = le32at src (off + 8) then .ok off
    else checkOffsets src size rest

/-- Models `Reader.init` up to and including start-header validation: the
signature scan, the `errFormat` check for an empty hit list, then the
candidate loop.  On success the accepted signature offset is returned. -/
def initArchive (src : List Nat) (size : Int) : Except InitErr Nat :=
  match findSignature src with
  | [] => .error .formatErr
  | off :: rest => checkOffsets src size (off :: rest)

/-- Models `NewReaderWithPassword`: a negative declared size fails with
`errNegativeSize` before anything is read from the source; otherwise
`init` runs (modelled through start-header validation). -/
def newReaderWithPassword (src : List Nat) (size : Int) (_password : List Nat) :
    Except InitErr Nat :=
  if size < 0 then .error .negativeSize
  else initArchive src size

/-- Models `NewReader`: delegates to `NewReaderWithPassword` with the
empty password. -/
def newReader (src : List Nat) (size : Int) : Except InitErr Nat :=
  newReaderWithPassword src size []

/-! ### File-to-folder assignment and offsets (`Reader.init` and
`streamsInfo.FileFolderAndSize`) -/

/-- Models the loop in `streamsInfo.FileFolderAndSize` that locates the
folder owning non-empty file number `j`: walk the per-folder substream
counts accumulating a running total and stop at the first folder whose
cumulative count exceeds `j`.  When the loop runs off the end the `folder`
range variable retains the last index, which the saturating `idx - 1`
yields; on an empty list it yields 0, the Go variable's initial value. -/
def fileFolderAux (j : Nat) : Nat → Nat → List Nat → Nat
  | idx, _total, [] => idx - 1
  | idx, total, s :: rest =>
    if j < total + s then idx else fileFolderAux j (idx + 1) (total + s) rest

/-- Folder index of non-empty file number `j` given the per-folder
substream counts. -/
def fileFolder (streams : List Nat) (j : Nat) : Nat := fileFolderAux j 0 0 streams

/-- Models the offset-assignment loop in `Reader.init`, restricted to the
non-empty files (empty files leave `folder`, `offset` and `j` untouched):
fold over the uncompressed sizes of the non-empty files in archive order,
reset the folder-local offset to 0 whenever the owning folder changes, and
accumulate sizes with Go `int64` addition, i.e. modulo `2 ^ 64` on the bit
pattern.  Returns the recorded `f.offset` values. -/
def assignOffsetsAux (streams : List Nat) : Nat → Nat → Nat → List Nat → List Nat
  | _j, _folderVar, _offset, [] => []
  | j, folderVar, offset, sz :: rest =>
    let fo := fileFolder streams j
    let offset1 := if fo ≠ folderVar then 0 else offset
    offset1 :: assignOffsetsAux streams (j + 1) fo ((offset1 + sz) % 2 ^ 64) rest

/-- Folder-local offsets recorded for the non-empty files, given the
per-folder substream counts and the files' uncompressed sizes. -/
def assignOffsets (streams : List Nat) (sizes : List Nat) : List Nat :=
  assignOffsetsAux streams 0 0 0 sizes

/-! ## Theorems -/

/-- C2, counterexample: after `init` has registered the Copy method
(`0x00`), a second `RegisterDecompressor` call with that method id does
not succeed and does not replace the constructor: `LoadOrStore` reports a
duplicate and the call aborts abnormally (modelled by `none`), so the
last registration does not win. -/
theorem C2_register_override_counterexample :
    (initRegistry.bind fun reg => registerDecompressor reg [0x00] (.custom 7)) = none ∧
    initRegistry.isSome = true := by
  constructor <;> rfl

/-- C2, amended: for every registry state and every method id that
already has a registered decompressor, a second `RegisterDecompressor`
call with that method id aborts with "decompressor already registered"
(modelled by `none`); the earlier constructor is never replaced. -/
theorem C2_register_duplicate_aborts (reg : Registry) (method : List Nat)
    (dcomp : DecompTag) (h : (registryLoad reg method).isSome = true) :
    registerDecompressor reg method dcomp = none := by
  cases hload : registryLoad reg method with
  | none => rw [hload] at h; simp at h
  | some d => simp [registerDecompressor, hload]

/-- C2, witness: the duplicate-registration theorem applied to a concrete
one-entry registry. -/
theorem C2_register_duplicate_aborts_witness :
    (registryLoad [([0x00], DecompTag.copy)] [0x00]).isSome = true ∧
    registerDecompressor [([0x00], DecompTag.copy)] [0x00] (.custom 7) = none :=
  ⟨by decide, C2_register_duplicate_aborts _ _ _ (by decide)⟩

/-- C7, counterexample: after process initialisation the registry built by
`init` in `register.go` has no entry for the BCJ branch-filter method id
`03 03 01 03` (one of the §1 codecs), so `decompressor` returns nil for
it. -/
theorem C7_registry_counterexample :
    (initRegistry.map fun reg => decompressor reg [0x03, 0x03, 0x01, 0x03]) =
      some none := by
  rfl

/-- C7, amended: after process initialisation the registry maps exactly
the six bundled method ids -- Copy `00`, LZMA `03 01 01`, Deflate
`04 01 08`, Bzip2 `04 02 02`, AES-256 `06 f1 07 01` and LZMA2 `21` -- to
their decoder constructors, so `decompressor` is non-nil for each of
them. -/
theorem C7_registry_amended :
    (initRegistry.map fun reg =>
      (decompressor reg [0x00], decompressor reg [0x03, 0x01, 0x01],
       decompressor reg [0x04, 0x01, 0x08], decompressor reg [0x04, 0x02, 0x02],
       decompressor reg [0x06, 0xf1, 0x07, 0x01], decompressor reg [0x21])) =
      some (some .copy, some .lzma, some .deflate, some .bzip2, some .aes7z,
        some .lzma2) := by
  rfl

/-- C8: at the failing property byte `p = 255` the Delta decoder's ring
distance is 0, not the 256 the claim (and the 7-zip Delta format) require:
the Go expression `int(p[0] + 1)` adds on a `byte` and wraps, and with a
zero distance the conversion loop in `Read` can no longer advance. -/
theorem C8_delta_distance_bug :
    deltaDistance [255] = some 0 ∧ (0 : Nat) ≠ 256 := by decide

/-- C10: for every source and every negative declared size,
`NewReaderWithPassword` and `NewReader` fail with the
size-cannot-be-negative error, and the result does not depend on the
source bytes (nothing is read from the source). -/
theorem C10_negative_size (src : List Nat) (size : Int) (password : List Nat)
    (h : size < 0) :
    newReaderWithPassword src size password = .error .negativeSize ∧
    newReader src size = .error .negativeSize ∧
    newReaderWithPassword src size password = newReaderWithPassword [] size password := by
  refine ⟨?_, ?_, ?_⟩ <;> simp [newReader, newReaderWithPassword, if_pos h]

/-- C10, witness: the negative-size theorem applied at size `-1`. -/
theorem C10_negative_size_witness :
    newReaderWithPassword [1, 2, 3] (-1) [] = .error .negativeSize ∧
    newReader [1, 2, 3] (-1) = .error .negativeSize :=
  ⟨(C10_negative_size [1, 2, 3] (-1) [] (by decide)).1,
   (C10_negative_size [1, 2, 3] (-1) [] (by decide)).2.1⟩

/-- C4: for a `Seek` call with whence start (0), current (1) or end (2),
the computed target is offset, position plus offset, or size plus offset;
a negative target fails with the negative-seek error, a target before the
current position fails with the seek-backwards error, a target past
`Size()` fails with the seek-beyond-EOF error, and otherwise the reader
discards bytes forward to the target -- the discarded bytes still being
fed to the running CRC hash -- and returns the target position. -/
theorem C4_folder_seek (rc : FolderRC) (offset whence target : Int)
    (hw : whence = 0 ∨ whence = 1 ∨ whence = 2)
    (hinv : rc.size = (rc.count : Int) + rc.stream.length)
    (htarget : target = if whence = 0 then offset
      else if whence = 1 then (rc.count : Int) + offset else rc.size + offset) :
    (target < 0 → folderSeek rc offset whence = .error .negativeSeek) ∧
    (0 ≤ target → target < (rc.count : Int) →
      folderSeek rc offset whence = .error .seekBackwards) ∧
    ((rc.count : Int) ≤ target → rc.size < target →
      folderSeek rc offset whence = .error .seekEOF) ∧
    ((rc.count : Int) ≤ target → target ≤ rc.size →
      folderSeek rc offset whence =
        .ok (target, ⟨target.toNat, rc.size,
          rc.stream.drop (target.toNat - rc.count),
          rc.hashed ++ rc.stream.take (target.toNat - rc.count)⟩)) := by
  have hwf : ¬(whence ≠ 0 ∧ whence ≠ 1 ∧ whence ≠ 2) := by
    rcases hw with h | h | h <;> simp [h]
  refine ⟨fun h1 => ?_, fun h0 h1 => ?_, fun h0 h1 => ?_, fun h0 h1 => ?_⟩ <;>
    simp only [folderSeek, if_neg hwf, ← htarget]
  · rw [if_pos h1]
  · rw [if_neg (by omega), if_pos (by omega)]
  · rw [if_neg (by omega), if_neg (by omega), if_pos h1]
  · rw [if_neg (by omega), if_neg (by omega), if_neg (by omega), if_neg (by omega)]

/-- C4, witness: a forward seek from position 2 to target 4 in a
size-5 stream, applying the seek theorem's success case. -/
theorem C4_folder_seek_witness :
    folderSeek ⟨2, 5, [7, 8, 9], [1, 2]⟩ 4 0 =
      .ok (4, ⟨4, 5, [9], [1, 2, 7, 8]⟩) :=
  (C4_folder_seek ⟨2, 5, [7, 8, 9], [1, 2]⟩ 4 0 4 (Or.inl rfl) (by decide)
    (by decide)).2.2.2 (by decide) (by decide)

/-- The first element of a descending-sorted list that is strictly below
`x` is the greatest element strictly below `x`. -/
theorem find_first_lt_sorted {l : List Int} {x k : Int}
    (hs : l.Pairwise fun a b => b ≤ a)
    (h : l.find? (fun m => decide (m < x)) = some k) :
    k ∈ l ∧ k < x ∧ ∀ m ∈ l, m < x → m ≤ k := by
  induction l with
  | nil => simp at h
  | cons a t ih =>
    rw [List.find?_cons] at h
    by_cases ha : a < x
    · simp only [decide_eq_true ha, if_pos] at h
      obtain rfl : a = k := by simpa using h
      refine ⟨List.mem_cons_self a t, ha, fun m hm hmx => ?_⟩
      rcases List.mem_cons.mp hm with rfl | hm
      · exact le_refl m
      · exact (List.pairwise_cons.mp hs).1 m hm
    · simp only [decide_eq_false ha, Bool.false_eq_true, if_false] at h
      obtain ⟨hk, hkx, hmax⟩ := ih (List.Pairwise.of_cons hs) h
      refine ⟨List.mem_cons_of_mem a hk, hkx, fun m hm hmx => ?_⟩
      rcases List.mem_cons.mp hm with rfl | hm
      · exact absurd hmx ha
      · exact hmax m hm hmx

/-- A key appearing in the cache's key list has a stored value. -/
theorem cacheLookup_isSome_of_mem {cache : List (Int × Nat)} {k : Int}
    (h : k ∈ cache.map Prod.fst) : ∃ v, cacheLookup cache k = some v := by
  induction cache with
  | nil => simp at h
  | cons e t ih =>
    obtain ⟨k0, v0⟩ := e
    by_cases he : k0 = k
    · exact ⟨v0, by simp [cacheLookup, he]⟩
    · have h' : k = k0 ∨ k ∈ t.map Prod.fst := by
        rw [List.map_cons] at h
        exact List.mem_cons.mp h
      have hmem : k ∈ t.map Prod.fst := h'.resolve_left fun h1 => he h1.symm
      obtain ⟨v, hv⟩ := ih hmem
      exact ⟨v, by simpa [cacheLookup, he] using hv⟩

/-- The key list of a pool cache sorted in descending order, as `pool.Get`
builds it. -/
theorem pool_keys_sorted (p : PoolState) :
    ((p.cache.map Prod.fst).mergeSort fun a b => decide (b ≤ a)).Pairwise
      (fun a b : Int => b ≤ a) := by
  have h := @List.sorted_mergeSort Int (fun a b : Int => decide (b ≤ a))
    (fun a b c h1 h2 => by simp at *; omega)
    (fun a b => by simp [Int.le_total]) (p.cache.map Prod.fst)
  simpa using h

/-- C3: `pool.Get` leaves the set of closed pipelines untouched (no
eviction callback runs); an exact hit at the requested offset is returned
with its entry removed; otherwise, if any key lies strictly below the
offset, the pipeline under the greatest such key is returned with its
entry removed; otherwise the call is a miss that leaves the pool
unchanged. -/
theorem C3_pool_get (p : PoolState) (offset : Int) :
    ((poolGet p offset).2.closed = p.closed) ∧
    (∀ v, cacheLookup p.cache offset = some v →
      poolGet p offset = (some (offset, v), ⟨cacheRemove p.cache offset, p.closed⟩)) ∧
    (cacheLookup p.cache offset = none →
      ∀ k0, k0 ∈ p.cache.map Prod.fst → k0 < offset →
      ∃ k v, k ∈ p.cache.map Prod.fst ∧ k < offset ∧
        (∀ m ∈ p.cache.map Prod.fst, m < offset → m ≤ k) ∧
        cacheLookup p.cache k = some v ∧
        poolGet p offset = (some (k, v), ⟨cacheRemove p.cache k, p.closed⟩)) ∧
    (cacheLookup p.cache offset = none →
      (∀ m ∈ p.cache.map Prod.fst, ¬m < offset) →
      poolGet p offset = (none, p)) := by
  refine ⟨?_, ?_, ?_, ?_⟩
  · cases h1 : cacheLookup p.cache offset with
    | some v => simp [poolGet, h1]
    | none =>
      cases h2 : ((p.cache.map Prod.fst).mergeSort fun a b => decide (b ≤ a)).find?
          (fun k => decide (k < offset)) with
      | none => simp [poolGet, h1, h2]
      | some k =>
        cases h3 : cacheLookup p.cache k with
        | none => simp [poolGet, h1, h2, h3]
        | some v => simp [poolGet, h1, h2, h3]
  · intro v hv
    simp [poolGet, hv]
  · intro hnone k0 hk0 hk0lt
    have hmem0 : k0 ∈ (p.cache.map Prod.fst).mergeSort fun a b => decide (b ≤ a) :=
      List.mem_mergeSort.mpr hk0
    obtain ⟨k, hf⟩ : ∃ k, ((p.cache.map Prod.fst).mergeSort fun a b => decide (b ≤ a)).find?
        (fun m => decide (m < offset)) = some k := by
      cases hfc : ((p.cache.map Prod.fst).mergeSort fun a b => decide (b ≤ a)).find?
          (fun m => decide (m < offset)) with
      | none =>
        have := List.find?_eq_none.mp hfc k0 hmem0
        simp [hk0lt] at this
      | some k => exact ⟨k, rfl⟩
    obtain ⟨hkmemS, hklt, hkmax⟩ := find_first_lt_sorted (pool_keys_sorted p) hf
    have hkmem : k ∈ p.cache.map Prod.fst := List.mem_mergeSort.mp hkmemS
    obtain ⟨v, hv⟩ := cacheLookup_isSome_of_mem hkmem
    refine ⟨k, v, hkmem, hklt, ?_, hv, ?_⟩
    · exact fun m hm hmlt => hkmax m (List.mem_mergeSort.mpr hm) hmlt
    · simp [poolGet, hnone, hf, hv]
  · intro hnone hmiss
    have hf : ((p.cache.map Prod.fst).mergeSort fun a b => decide (b ≤ a)).find?
        (fun m => decide (m < offset)) = none :=
      List.find?_eq_none.mpr fun x hx => by
        simpa using hmiss x (List.mem_mergeSort.mp hx)
    simp [poolGet, hnone, hf]

/-- C3, witness: an exact hit at offset 3 in a one-entry pool, through the
exact-hit case of the pool theorem. -/
theorem C3_pool_get_witness :
    poolGet ⟨[(3, 10)], []⟩ 3 = (some (3, 10), ⟨[], []⟩) := by
  have h := (C3_pool_get ⟨[(3, 10)], []⟩ 3).2.1 10 (by decide)
  simpa [cacheRemove] using h

/-- Single-step accounting for `fileRead`: the new budget is the old one
minus the bytes returned, and a call that leaves the initial state is the
only way to keep the budget negative. -/
theorem fileRead_step (s : FileReader) (plen : Nat) :
    (fileRead s plen).2.2.n = s.n - (fileRead s plen).1 ∧
    ((fileRead s plen).1 = 0 ∨ 0 ≤ (fileRead s plen).2.2.n) := by
  unfold fileRead
  split_ifs with h1 h2
  · simp
  · simp
  · refine ⟨by simp, Or.inr ?_⟩
    simp only
    omega

/-- Accounting for a sequence of reads: the final budget is the initial
budget minus the total bytes returned, and a non-zero total leaves a
non-negative budget. -/
theorem runReads_acc (rs : List Nat) (s : FileReader) :
    (runReads s rs).2.n = s.n - (runReads s rs).1 ∧
    ((runReads s rs).1 = 0 ∨ 0 ≤ (runReads s rs).2.n) := by
  induction rs generalizing s with
  | nil => simp [runReads]
  | cons plen rest ih =>
    obtain ⟨ha, hb⟩ := fileRead_step s plen
    obtain ⟨hc, hd⟩ := ih (fileRead s plen).2.2
    simp only [runReads]
    constructor
    · push_cast
      omega
    · rcases hb with hb | hb <;> rcases hd with hd | hd
      · left; omega
      · right; omega
      · right; omega
      · right; omega

/-- C9: the reader returned by `File.Open` for a non-empty file of
uncompressed size `u` yields at most `u` bytes in total across any
sequence of `Read` calls, and once exactly `u` bytes have been returned,
every further read with a non-empty buffer returns 0 bytes and `io.EOF`,
leaving the state unchanged. -/
theorem C9_file_reader_budget (u : Nat) (hu : u < 2 ^ 64) (src : List Nat)
    (rs : List Nat) :
    (runReads ⟨int64OfUInt64 u, src⟩ rs).1 ≤ u ∧
    ((runReads ⟨int64OfUInt64 u, src⟩ rs).1 = u →
      ∀ plen, 0 < plen →
        fileRead (runReads ⟨int64OfUInt64 u, src⟩ rs).2 plen =
          (0, .eof, (runReads ⟨int64OfUInt64 u, src⟩ rs).2)) := by
  obtain ⟨h1, h2⟩ := runReads_acc rs ⟨int64OfUInt64 u, src⟩
  have h1' : (runReads ⟨int64OfUInt64 u, src⟩ rs).2.n =
      int64OfUInt64 u - ((runReads ⟨int64OfUInt64 u, src⟩ rs).1 : Int) := h1
  have hle : int64OfUInt64 u ≤ (u : Int) := by
    unfold int64OfUInt64
    split <;> omega
  constructor
  · rcases h2 with h | h
    · omega
    · omega
  · intro htot plen hp
    have hneg : (runReads ⟨int64OfUInt64 u, src⟩ rs).2.n ≤ 0 := by omega
    unfold fileRead
    rw [if_neg (by omega), if_pos hneg]

/-- C9, witness: reading a 3-byte file in two 2-byte requests exhausts the
budget and a further 1-byte request returns `io.EOF` with no bytes. -/
theorem C9_file_reader_budget_witness :
    (runReads ⟨int64OfUInt64 3, [4, 5, 6, 7]⟩ [2, 2]).1 ≤ 3 ∧
    fileRead (runReads ⟨int64OfUInt64 3, [4, 5, 6, 7]⟩ [2, 2]).2 1 =
      (0, .eof, (runReads ⟨int64OfUInt64 3, [4, 5, 6, 7]⟩ [2, 2]).2) :=
  ⟨(C9_file_reader_budget 3 (by decide) [4, 5, 6, 7] [2, 2]).1,
   (C9_file_reader_budget 3 (by decide) [4, 5, 6, 7] [2, 2]).2 (by decide) 1
     (by decide)⟩

/-- The AES fill loop consumes ciphertext only in whole 16-byte blocks:
on a ciphertext whose length is a multiple of 16 it never fails, adding
`16 * k` decrypted bytes to the buffer while consuming `16 * k` ciphertext
bytes. -/
theorem aesFillF_whole_blocks {σ : Type} (cbc : σ → List Nat → List Nat × σ)
    (hlen : ∀ st b, b.length = 16 → (cbc st b).1.length = 16) (plen : Nat) :
    ∀ fuel upstream buf st, upstream.length < fuel → 16 ∣ upstream.length →
      ∃ k up1 buf1 st1,
        aesFillF cbc plen fuel upstream buf st = .ok (up1, buf1, st1) ∧
        buf1.length = buf.length + 16 * k ∧
        up1.length = upstream.length - 16 * k := by
  intro fuel
  induction fuel with
  | zero => intro upstream _ _ h _; omega
  | succ fuel ih =>
    intro upstream buf st hfuel hdvd
    by_cases hb : buf.length < plen
    · by_cases h0 : upstream.length = 0
      · exact ⟨0, upstream, buf, st, by simp [aesFillF, hb, h0], by omega, by omega⟩
      · have h16 : ¬upstream.length < 16 := by omega
        obtain ⟨k, up1, buf1, st1, heq, hb1, hu1⟩ :=
          ih (upstream.drop 16) (buf ++ (cbc st (upstream.take 16)).1)
            (cbc st (upstream.take 16)).2 (by simp; omega) (by simp; omega)
        refine ⟨k + 1, up1, buf1, st1, ?_, ?_, ?_⟩
        · simpa [aesFillF, hb, h0, h16] using heq
        · have htake : (cbc st (upstream.take 16)).1.length = 16 :=
            hlen st _ (by simp; omega)
          simp [htake] at hb1
          omega
        · simp at hu1
          omega
    · exact ⟨0, upstream, buf, st, by simp [aesFillF, hb], by omega, by omega⟩

/-- The AES fill loop aborts with the wrapped unexpected-EOF error when it
needs bytes past a trailing partial block: if the ciphertext length is not
a multiple of 16 and the whole blocks cannot satisfy the request, the
loop reaches the partial tail and fails. -/
theorem aesFillF_tail_err {σ : Type} (cbc : σ → List Nat → List Nat × σ)
    (hlen : ∀ st b, b.length = 16 → (cbc st b).1.length = 16) (plen : Nat) :
    ∀ fuel upstream buf st, upstream.length < fuel → ¬16 ∣ upstream.length →
      buf.length + 16 * (upstream.length / 16) < plen →
      aesFillF cbc plen fuel upstream buf st = .error .readBlockErr := by
  intro fuel
  induction fuel with
  | zero => intro upstream _ _ h _ _; omega
  | succ fuel ih =>
    intro upstream buf st hfuel hdvd hlt
    have hb : buf.length < plen := by omega
    have h0 : ¬upstream.length = 0 := by
      intro h
      exact hdvd (by omega)
    by_cases h16 : upstream.length < 16
    · simp [aesFillF, hb, h0, h16]
    · have htake : (cbc st (upstream.take 16)).1.length = 16 :=
        hlen st _ (by simp; omega)
      have hrec := ih (upstream.drop 16) (buf ++ (cbc st (upstream.take 16)).1)
        (cbc st (upstream.take 16)).2 (by simp; omega) (by simp; omega)
        (by simp [htake]; omega)
      simpa [aesFillF, hb, h0, h16] using hrec

/-- C6, counterexample: with the password set and an 8-byte (partial
block) ciphertext, `Read` does not stop silently: `io.ReadFull` fails with
`io.ErrUnexpectedEOF`, which the `errors.Is(err, io.EOF)` test does not
match, so the call returns the wrapped read error instead of dropping the
partial block without error. -/
theorem C6_aes_trailing_block_counterexample :
    aesRead (σ := Unit) (fun st b => (b, st))
      ⟨true, (), [1, 2, 3, 4, 5, 6, 7, 8], []⟩ 16 = .error .readBlockErr ∧
    (aesRead (σ := Unit) (fun st b => (b, st))
      ⟨true, (), [1, 2, 3, 4, 5, 6, 7, 8], []⟩ 16).isOk = false := by
  constructor <;> rfl

/-- C6, amended: with the password set, `Read` moves data out of the
ciphertext only in whole 16-byte decrypted blocks; an upstream that ends
exactly on a block boundary is consumed without error, while a read that
needs bytes past a trailing partial block fails with the wrapped
unexpected-EOF read error rather than silently dropping the partial
block. -/
theorem C6_aes_read_amended {σ : Type} (cbc : σ → List Nat → List Nat × σ)
    (hlen : ∀ st b, b.length = 16 → (cbc st b).1.length = 16)
    (s : AesState σ) (plen : Nat) (hpw : s.pwSet = true) :
    (16 ∣ s.upstream.length →
      ∃ k n out res s2, aesRead cbc s plen = .ok (n, out, res, s2) ∧
        n + s2.buf.length = s.buf.length + 16 * k ∧
        s2.upstream.length = s.upstream.length - 16 * k) ∧
    (¬16 ∣ s.upstream.length →
      s.buf.length + 16 * (s.upstream.length / 16) < plen →
      aesRead cbc s plen = .error .readBlockErr) := by
  constructor
  · intro hdvd
    obtain ⟨k, up1, buf1, st1, heq, hb1, hu1⟩ :=
      aesFillF_whole_blocks cbc hlen plen (s.upstream.length + 1) s.upstream
        s.buf s.cbcSt (by omega) hdvd
    refine ⟨k, min plen buf1.length, buf1.take (min plen buf1.length),
      (if min plen buf1.length = 0 ∧ 0 < plen then ReadRes.eof else ReadRes.ok),
      ⟨s.pwSet, st1, up1, buf1.drop (min plen buf1.length)⟩, ?_, ?_, ?_⟩
    · simp [aesRead, hpw, aesFill, heq]
    · simp only [List.length_drop]
      omega
    · exact hu1
  · intro hdvd hlt
    have hfill := aesFillF_tail_err cbc hlen plen (s.upstream.length + 1)
      s.upstream s.buf s.cbcSt (by omega) hdvd hlt
    simp [aesRead, hpw, aesFill, hfill]

/-- C6, witness: a 17-byte ciphertext has a trailing 1-byte partial block;
a read that needs more than the single whole block fails with the wrapped
read error, by the partial-tail case of the amended theorem. -/
theorem C6_aes_read_amended_witness :
    ¬16 ∣ ([1, 2, 3, 4, 5, 6, 7, 8, 9, 10, 11, 12, 13, 14, 15, 16, 17] :
      List Nat).length ∧
    aesRead (σ := Unit) (fun st b => (b, st))
      ⟨true, (), [1, 2, 3, 4, 5, 6, 7, 8, 9, 10, 11, 12, 13, 14, 15, 16, 17], []⟩
      20 = .error .readBlockErr :=
  ⟨by decide,
   (C6_aes_read_amended (σ := Unit) (fun st b => (b, st)) (fun _ _ h => h)
     ⟨true, (), [1, 2, 3, 4, 5, 6, 7, 8, 9, 10, 11, 12, 13, 14, 15, 16, 17], []⟩
     20 rfl).2 (by decide) (by decide)⟩

/-- The folder-location loop never returns an index below the starting
index minus one. -/
theorem fileFolderAux_lb (j : Nat) :
    ∀ (l : List Nat) (idx total : Nat), idx - 1 ≤ fileFolderAux j idx total l := by
  intro l
  induction l with
  | nil => intro idx total; simp [fileFolderAux]
  | cons s rest ih =>
    intro idx total
    unfold fileFolderAux
    split
    · omega
    · have := ih (idx + 1) (total + s)
      omega

/-- The folder-location loop is monotone in the file number: later files
land in the same or a later folder. -/
theorem fileFolderAux_mono :
    ∀ (l : List Nat) (j1 j2 idx total : Nat), j1 ≤ j2 →
      fileFolderAux j1 idx total l ≤ fileFolderAux j2 idx total l := by
  intro l
  induction l with
  | nil => intro j1 j2 idx total _; simp [fileFolderAux]
  | cons s rest ih =>
    intro j1 j2 idx total h
    unfold fileFolderAux
    by_cases h1 : j1 < total + s
    · rw [if_pos h1]
      by_cases h2 : j2 < total + s
      · rw [if_pos h2]
      · rw [if_neg h2]
        have := fileFolderAux_lb j2 rest (idx + 1) (total + s)
        omega
    · rw [if_neg h1, if_neg (by omega)]
      exact ih j1 j2 (idx + 1) (total + s) h

/-- Folder assignment is monotone in the file number. -/
theorem fileFolder_mono (streams : List Nat) {j1 j2 : Nat} (h : j1 ≤ j2) :
    fileFolder streams j1 ≤ fileFolder streams j2 :=
  fileFolderAux_mono streams j1 j2 0 0 h

/-- Invariant of the offset-assignment loop: entering the loop at file
`j0` with the folder variable holding the previous file's folder (or its
initial 0 when no file was processed) and the offset variable holding the
sum of the already-processed sizes in that folder, every produced entry
equals the sum of the prior same-folder sizes. -/
theorem assignOffsetsAux_spec (streams sizes : List Nat) (hsum : sizes.sum < 2 ^ 64) :
    ∀ (rest : List Nat) (j0 fv off : Nat),
      rest = sizes.drop j0 →
      ((j0 = 0 ∧ fv = 0) ∨ (0 < j0 ∧ fv = fileFolder streams (j0 - 1))) →
      off = (((List.range j0).filter fun k =>
          fileFolder streams k = fv).map fun k => sizes.getD k 0).sum →
      off ≤ (sizes.take j0).sum →
      ∀ i, i < rest.length →
        (assignOffsetsAux streams j0 fv off rest).getD i 0 =
          (((List.range (j0 + i)).filter fun k =>
              fileFolder streams k = fileFolder streams (j0 + i)).map fun k =>
            sizes.getD k 0).sum := by
  intro rest
  induction rest with
  | nil => intro j0 fv off _ _ _ _ i hi; simp at hi
  | cons sz rest1 ih =>
    intro j0 fv off hrest hfv hoff hbound i hi
    have hlen : j0 < sizes.length := by
      have := List.length_drop j0 sizes
      rw [← hrest] at this
      simp at this
      omega
    have h0 : sizes[j0]? = some sz := by
      have hdg := List.getElem?_drop sizes j0 0
      rw [← hrest] at hdg
      simpa using hdg.symm
    have hsz : sizes.getD j0 0 = sz := by
      rw [List.getD_eq_getElem?_getD, h0]
      rfl
    have hrest1 : rest1 = sizes.drop (j0 + 1) := by
      have hdd : (sizes.drop j0).drop 1 = sizes.drop (j0 + 1) := by
        rw [List.drop_drop]
      rw [← hrest] at hdd
      simpa using hdd
    have hA : (if fileFolder streams j0 ≠ fv then 0 else off) =
        (((List.range j0).filter fun k =>
            fileFolder streams k = fileFolder streams j0).map fun k =>
          sizes.getD k 0).sum := by
      by_cases hfo : fileFolder streams j0 = fv
      · rw [if_neg (by simpa using hfo), hoff, hfo]
      · rw [if_pos (by simpa using hfo)]
        have hempty : ((List.range j0).filter fun k =>
            fileFolder streams k = fileFolder streams j0) = [] := by
          rw [List.filter_eq_nil_iff]
          intro k hk
          simp only [List.mem_range] at hk
          rcases hfv with ⟨hj0, _⟩ | ⟨hj0, hfveq⟩
          · omega
          · have hk1 : fileFolder streams k ≤ fileFolder streams (j0 - 1) :=
              fileFolder_mono streams (by omega)
            have hk2 : fileFolder streams (j0 - 1) ≤ fileFolder streams j0 :=
              fileFolder_mono streams (by omega)
            simp only [decide_eq_true_eq]
            omega
        rw [hempty]
        simp
    have htake : (sizes.take (j0 + 1)).sum = (sizes.take j0).sum + sz := by
      rw [List.take_succ, List.sum_append, h0]
      rfl
    have htot : (sizes.take (j0 + 1)).sum ≤ sizes.sum := by
      conv_rhs => rw [← List.take_append_drop (j0 + 1) sizes]
      rw [List.sum_append]
      omega
    have hb1 : (if fileFolder streams j0 ≠ fv then 0 else off) ≤ (sizes.take j0).sum := by
      split
      · omega
      · exact hbound
    have hlt : (if fileFolder streams j0 ≠ fv then 0 else off) + sz < 2 ^ 64 := by
      have := htake ▸ htot
      omega
    have hmod : ((if fileFolder streams j0 ≠ fv then 0 else off) + sz) % 2 ^ 64 =
        (if fileFolder streams j0 ≠ fv then 0 else off) + sz :=
      Nat.mod_eq_of_lt hlt
    have hD : (if fileFolder streams j0 ≠ fv then 0 else off) + sz =
        (((List.range (j0 + 1)).filter fun k =>
            fileFolder streams k = fileFolder streams j0).map fun k =>
          sizes.getD k 0).sum := by
      rw [hA, List.range_succ, List.filter_append, List.map_append, List.sum_append]
      simp [List.getD_eq_getElem?_getD, h0]
    cases i with
    | zero =>
      simp only [assignOffsetsAux, Nat.add_zero]
      exact hA
    | succ i1 =>
      simp only [assignOffsetsAux, List.getD_cons_succ]
      have hbound1 : ((if fileFolder streams j0 ≠ fv then 0 else off) + sz) % 2 ^ 64 ≤
          (sizes.take (j0 + 1)).sum := by
        rw [hmod, htake]
        exact Nat.add_le_add_right hb1 sz
      have hstep := ih (j0 + 1) (fileFolder streams j0)
        (((if fileFolder streams j0 ≠ fv then 0 else off) + sz) % 2 ^ 64)
        hrest1 (Or.inr ⟨by omega, by simp⟩) (by rw [hmod, hD]) hbound1
        i1 (by simpa using Nat.lt_of_succ_lt_succ hi)
      rw [show j0 + (i1 + 1) = j0 + 1 + i1 from by omega]
      exact hstep

/-- C1: for every parsed archive, the folder-local offset recorded for
non-empty file `j` equals the sum of the uncompressed sizes of the prior
non-empty files assigned to the same folder (so the first non-empty file
of each folder gets offset 0), provided the total uncompressed size fits
an `int64` so the Go addition does not wrap. -/
theorem C1_folder_offsets (streams sizes : List Nat) (j : Nat)
    (hj : j < sizes.length) (hsum : sizes.sum < 2 ^ 63) :
    (assignOffsets streams sizes).getD j 0 =
      (((List.range j).filter fun k =>
          fileFolder streams k = fileFolder streams j).map fun k =>
        sizes.getD k 0).sum := by
  have h := assignOffsetsAux_spec streams sizes (by omega) sizes 0 0 0 (by simp)
    (Or.inl ⟨rfl, rfl⟩) (by simp) (by simp) j (by simpa using hj)
  simpa [assignOffsets] using h

/-- C1, witness: with folders holding 2, 3 and 1 files of sizes
5, 7, 11, 13, 17, 19, file number 4 (the third file of folder 1) gets
offset 11 + 13 = 24. -/
theorem C1_folder_offsets_witness :
    (assignOffsets [2, 3, 1] [5, 7, 11, 13, 17, 19]).getD 4 0 =
      (((List.range 4).filter fun k =>
          fileFolder [2, 3, 1] k = fileFolder [2, 3, 1] 4).map fun k =>
        [5, 7, 11, 13, 17, 19].getD k 0).sum :=
  C1_folder_offsets [2, 3, 1] [5, 7, 11, 13, 17, 19] 4 (by decide) (by decide)

/-- A prefix match forces the pattern to be no longer than the list. -/
theorem listStartsWith_length {pat : List Nat} :
    ∀ {l : List Nat}, listStartsWith l pat = true → pat.length ≤ l.length := by
  induction pat with
  | nil => simp
  | cons b pt ih =>
    intro l h
    cases l with
    | nil => simp [listStartsWith] at h
    | cons a lt =>
      simp only [listStartsWith, Bool.and_eq_true] at h
      have := ih h.2
      simp only [List.length_cons]
      omega

/-- A prefix of a `take` is a prefix of the full list. -/
theorem listStartsWith_of_take {pat : List Nat} :
    ∀ {l : List Nat} {n : Nat}, listStartsWith (l.take n) pat = true →
      listStartsWith l pat = true := by
  induction pat with
  | nil => intro l _ _; cases l <;> rfl
  | cons b pt ih =>
    intro l n h
    cases l with
    | nil => simpa using h
    | cons a lt =>
      cases n with
      | zero => simp [listStartsWith] at h
      | succ n1 =>
        simp only [List.take_succ_cons, listStartsWith, Bool.and_eq_true] at h ⊢
        exact ⟨h.1, ih h.2⟩

/-- A prefix also matches inside a sufficiently long `take`. -/
theorem listStartsWith_take {pat : List Nat} :
    ∀ {l : List Nat} {n : Nat}, listStartsWith l pat = true → pat.length ≤ n →
      listStartsWith (l.take n) pat = true := by
  induction pat with
  | nil => intro l n _ _; cases h : l.take n <;> rfl
  | cons b pt ih =>
    intro l n h hn
    cases l with
    | nil => simp [listStartsWith] at h
    | cons a lt =>
      cases n with
      | zero => simp at hn
      | succ n1 =>
        simp only [List.take_succ_cons, listStartsWith, Bool.and_eq_true] at h ⊢
        exact ⟨h.1, ih h.2 (by simpa using hn)⟩

/-- A `bytesIndex` hit is a prefix match at the returned position. -/
theorem bytesIndex_some {pat : List Nat} :
    ∀ {l : List Nat} {i : Nat}, bytesIndex pat l = some i →
      listStartsWith (l.drop i) pat = true := by
  intro l
  induction l with
  | nil =>
    intro i h
    unfold bytesIndex at h
    split at h
    · obtain rfl : (0 : Nat) = i := by simpa using h
      simpa using ‹listStartsWith [] pat = true›
    · simp at h
  | cons a t ih =>
    intro i h
    unfold bytesIndex at h
    split at h
    · obtain rfl : (0 : Nat) = i := by simpa using h
      simpa using ‹listStartsWith (a :: t) pat = true›
    · cases hb : bytesIndex pat t with
      | none => rw [hb] at h; simp at h
      | some i0 =>
        rw [hb] at h
        simp only [Option.map_some', Option.some.injEq] at h
        subst h
        simpa using ih hb

/-- A match of the whole magic starting at the list head makes
`bytesIndex` return position 0 at once. -/
theorem bytesIndex_zero {pat l : List Nat} (h : listStartsWith l pat = true) :
    bytesIndex pat l = some 0 := by
  cases l with
  | nil => simp [bytesIndex, h]
  | cons a t => simp [bytesIndex, h]

/-- Every offset the chunk scan produces that was not already accumulated
is a prefix match of the magic inside the scanned suffix. -/
theorem scanChunkF_sound :
    ∀ (fuel : Nat) (sub : List Nat) (pos : Nat) (acc : List Nat) (q : Nat),
      q ∈ (scanChunkF fuel sub pos acc).1 →
      q ∈ acc ∨ ∃ i, q = pos + i ∧ listStartsWith (sub.drop i) signature = true := by
  intro fuel
  induction fuel with
  | zero => intro sub pos acc q hq; exact Or.inl (by simpa [scanChunkF] using hq)
  | succ fuel ih =>
    intro sub pos acc q hq
    simp only [scanChunkF] at hq
    cases hb : bytesIndex signature sub with
    | none =>
      rw [hb] at hq
      exact Or.inl hq
    | some idx =>
      rw [hb] at hq
      simp only at hq
      by_cases hh : (acc ++ [pos + idx]).headI = 0
      · rw [if_pos hh] at hq
        rcases List.mem_append.mp hq with h1 | h1
        · exact Or.inl h1
        · exact Or.inr ⟨idx, by simpa using h1, bytesIndex_some hb⟩
      · rw [if_neg hh] at hq
        rcases ih _ _ _ q hq with h1 | ⟨i, rfl, hsw⟩
        · rcases List.mem_append.mp h1 with h2 | h2
          · exact Or.inl h2
          · exact Or.inr ⟨idx, by simpa using h2, bytesIndex_some hb⟩
        · refine Or.inr ⟨idx + 1 + i, by omega, ?_⟩
          have hdd : (sub.drop (idx + 1)).drop i = sub.drop (idx + 1 + i) := by
            rw [List.drop_drop]
          rw [hdd] at hsw
          exact hsw

/-- Every offset the chunk loop produces that was not already accumulated
is an occurrence of the magic at a position no later than the search
limit. -/
theorem findSignatureGo_sound (src : List Nat) :
    ∀ (iters off : Nat) (acc : List Nat) (q : Nat),
      off + iters * chunkSize = searchLimit →
      q ∈ findSignatureGo src iters off acc →
      q ∈ acc ∨ (occursAt src q = true ∧ q ≤ searchLimit) := by
  intro iters
  induction iters with
  | zero => intro off acc q _ hq; exact Or.inl (by simpa [findSignatureGo] using hq)
  | succ iters ih =>
    intro off acc q hoff hq
    have hscan : q ∈ (scanChunk ((src.drop off).take
        (min (chunkSize + 6) (src.length - off))) off acc).1 →
        q ∈ acc ∨ (occursAt src q = true ∧ q ≤ searchLimit) := by
      intro hmem
      rcases scanChunkF_sound _ _ _ _ q hmem with h1 | ⟨i, rfl, hsw⟩
      · exact Or.inl h1
      · right
        have h6 : signature.length ≤
            (((src.drop off).take (min (chunkSize + 6) (src.length - off))).drop i).length :=
          listStartsWith_length hsw
        have hsw2 : listStartsWith ((src.drop (off + i)).take
            (min (chunkSize + 6) (src.length - off) - i)) signature = true := by
          rw [List.drop_take, List.drop_drop] at hsw
          exact hsw
        constructor
        · exact listStartsWith_of_take hsw2
        · simp only [List.length_drop, List.length_take, signature,
            List.length_cons, List.length_nil] at h6
          have hcs : (0 : Nat) < chunkSize := by norm_num [chunkSize]
          have hmul : chunkSize ≤ (iters + 1) * chunkSize :=
            Nat.le_mul_of_pos_left chunkSize (by omega)
          omega
    simp only [findSignatureGo] at hq
    split at hq
    · exact hscan hq
    · split at hq
      · exact hscan hq
      · have hoff1 : off + chunkSize + iters * chunkSize = searchLimit := by
          rw [Nat.succ_mul] at hoff
          omega
        rcases ih (off + chunkSize) _ q hoff1 hq with h1 | h2
        · exact hscan h1
        · exact Or.inr h2

/-- When the magic occurs nowhere at or before the search limit, the
signature scan comes back empty. -/
theorem findSignature_empty {src : List Nat}
    (h : ∀ q, q ≤ searchLimit → occursAt src q = false) :
    findSignature src = [] := by
  cases hf : findSignature src with
  | nil => rfl
  | cons q rest =>
    have hq : q ∈ findSignatureGo src (searchLimit / chunkSize) 0 [] := by
      have : q ∈ findSignature src := by rw [hf]; exact List.mem_cons_self q rest
      simpa [findSignature] using this
    rcases findSignatureGo_sound src (searchLimit / chunkSize) 0 [] q
        (by norm_num [searchLimit, chunkSize]) hq with h1 | ⟨hocc, hle⟩
    · simp at h1
    · rw [h q hle] at hocc
      simp at hocc

/-- A magic at offset 0 is accepted immediately: the scan returns only
that hit without considering later ones. -/
theorem findSignature_zero {src : List Nat} (h : occursAt src 0 = true) :
    findSignature src = [0] := by
  have hsw : listStartsWith src signature = true := by simpa [occursAt] using h
  have hlen : 6 ≤ src.length := by
    simpa [signature] using listStartsWith_length hsw
  have hn : (6 : Nat) ≤ min (chunkSize + 6) (src.length - 0) := by
    simp only [chunkSize, Nat.sub_zero]
    omega
  have hswt : listStartsWith ((src.drop 0).take
      (min (chunkSize + 6) (src.length - 0))) signature = true := by
    simpa using listStartsWith_take hsw (by simpa [signature] using hn)
  have hscan : scanChunk ((src.drop 0).take (min (chunkSize + 6) (src.length - 0)))
      0 [] = ([0], true) := by
    unfold scanChunk
    rw [scanChunkF, bytesIndex_zero hswt]
    simp
  show findSignatureGo src (searchLimit / chunkSize) 0 [] = [0]
  rw [show searchLimit / chunkSize = 255 + 1 from by norm_num [searchLimit, chunkSize]]
  rw [findSignatureGo]
  simp only [hscan]
  simp

/-- The candidate loop of `Reader.init` ends with the checksum error when
every hit has its 32 header bytes available but fails CRC validation. -/
theorem checkOffsets_all_fail (src : List Nat) (size : Int) :
    ∀ offs, (∀ off : Nat, off ∈ offs → (off : Int) + 32 ≤ min size (src.length : Int) ∧
      crc32Bytes ((src.drop (off + 12)).take 20) ≠ le32at src (off + 8)) →
      checkOffsets src size offs = .error .checksumErr := by
  intro offs
  induction offs with
  | nil => intro _; rfl
  | cons off rest ih =>
    intro hall
    obtain ⟨havail, hcrc⟩ := hall off (List.mem_cons_self off rest)
    simp only [checkOffsets]
    rw [if_neg (by omega), if_neg hcrc]
    exact ih fun o ho => hall o (List.mem_cons_of_mem off ho)

/-- C5, counterexample: a source consisting of only the 6 magic bytes has
a hit at offset 0 and no validating start header (there are not even 32
bytes to read), yet the open fails with the wrapped header-read error, not
with the checksum error the claim requires. -/
theorem C5_signature_counterexample :
    findSignature signature = [0] ∧
    ¬((0 : Int) + 32 ≤ min 6 ((signature.length : Nat) : Int)) ∧
    initArchive signature 6 = .error .readHeaderErr ∧
    InitErr.readHeaderErr ≠ InitErr.checksumErr :=
  ⟨rfl, by decide, rfl, by decide⟩

/-- C5, amended: if the magic occurs nowhere at or before the 1 MiB
search limit the open fails with the format error; if hits exist, each
hit has its 32 header bytes available inside the declared size, and none
validates its start-header CRC, the open fails with the checksum error
(when the 32 bytes cannot be read the open instead fails with the wrapped
read error, as the counterexample shows); and a hit at offset 0 is
accepted immediately, later hits never being recorded or tried. -/
theorem C5_signature_amended (src : List Nat) (size : Int) :
    ((∀ q, q ≤ searchLimit → occursAt src q = false) →
      initArchive src size = .error .formatErr) ∧
    (∀ offs, findSignature src = offs → offs ≠ [] →
      (∀ off : Nat, off ∈ offs → (off : Int) + 32 ≤ min size (src.length : Int) ∧
        crc32Bytes ((src.drop (off + 12)).take 20) ≠ le32at src (off + 8)) →
      initArchive src size = .error .checksumErr) ∧
    (occursAt src 0 = true → findSignature src = [0]) := by
  refine ⟨?_, ?_, ?_⟩
  · intro h
    unfold initArchive
    rw [findSignature_empty h]
  · intro offs hf hne hall
    unfold initArchive
    rw [hf]
    cases offs with
    | nil => exact absurd rfl hne
    | cons off rest => exact checkOffsets_all_fail src size (off :: rest) hall
  · exact findSignature_zero

/-- C5, witness: the immediate-acceptance case applied to a source that
starts with the magic. -/
theorem C5_signature_amended_witness :
    findSignature (signature ++ [9, 9]) = [0] :=
  (C5_signature_amended (signature ++ [9, 9]) 8).2.2 (by decide)

end SevenZip
